import Mathlib

/-!
Verification development for the deterministic execution runtime of a
generative-art playground: seeded pseudorandom stream, parameter schema
extraction/reconciliation, textual parameter injection, and the animation
clock.  Each definition is a shallow embedding of the corresponding
TypeScript source; machine floats are modelled as rationals, JavaScript
`NaN`/`undefined` are modelled explicitly where the code's comparisons
depend on them.
-/

namespace GenArt

/-! ## SeededStream (src/utils/seededRNG.ts)

The `seedrandom` npm package is an external dependency: a deterministic
PRNG whose state is a pure function of the seed string.  Its exact ARC4
algorithm is irrelevant to every claim (all claims depend only on
determinism and on `random()` landing in `[0,1)`), so the generator is
modelled as a concrete deterministic LCG seeded by a string hash. -/

structure PRNG where
  state : ℕ
deriving DecidableEq, Repr

/-- Model of `seedrandom(seed)`: deterministic state derived purely from
the seed string (a fold over its characters). -/
def seedrandomInit (seed : String) : PRNG :=
  ⟨seed.data.foldl (fun h c => (h * 31 + c.toNat) % 4294967296) 7⟩

/-- The value of one draw with post-step internal state `s`: a rational in
`[0,1)`. -/
def prngVal (s : ℕ) : ℚ := (s : ℚ) / 4294967296

theorem prngVal_eq (s : ℕ) : prngVal s = (s : ℚ) / 4294967296 := rfl

theorem prngVal_nonneg (s : ℕ) : 0 ≤ prngVal s := by
  unfold prngVal
  positivity

theorem prngVal_lt_one (s : ℕ) (h : s < 4294967296) : prngVal s < 1 := by
  unfold prngVal
  rw [div_lt_one (by norm_num)]
  exact_mod_cast h

theorem prngVal_injective {a b : ℕ} (h : prngVal a = prngVal b) : a = b := by
  unfold prngVal at h
  rw [div_eq_div_iff (by norm_num) (by norm_num)] at h
  exact_mod_cast mul_right_cancel₀ (show (4294967296 : ℚ) ≠ 0 by norm_num) h

/-- The linear-congruential state step of the modelled generator,
`(x * 1664525 + 1013904223) % 2^32`.  (Split on the argument so that
definitional reduction is stuck on a symbolic argument instead of
expanding the large numerals unarily.) -/
def lcgStep : ℕ → ℕ
  | 0 => 1013904223 % 4294967296
  | n + 1 => ((n + 1) * 1664525 + 1013904223) % 4294967296

theorem lcgStep_eq (x : ℕ) :
    lcgStep x = (x * 1664525 + 1013904223) % 4294967296 := by
  cases x with
  | zero => norm_num [lcgStep]
  | succ n => rfl

theorem lcgStep_lt (x : ℕ) : lcgStep x < 4294967296 := by
  rw [lcgStep_eq]
  exact Nat.mod_lt _ (by norm_num)

/-- One draw from the generator, returning a rational in `[0,1)` and the
advanced state. -/
def prngNext (g : PRNG) : ℚ × PRNG :=
  (prngVal (lcgStep g.state), ⟨lcgStep g.state⟩)

theorem prngNext_nonneg (g : PRNG) : 0 ≤ (prngNext g).1 :=
  prngVal_nonneg _

theorem prngNext_lt_one (g : PRNG) : (prngNext g).1 < 1 :=
  prngVal_lt_one _ (lcgStep_lt _)

/-- `SeededRandomGenerator`: `seed` and `originalSeed` are both set from the
resolved constructor seed; `rng` is the owned generator instance. -/
structure SeededRandomGenerator where
  seed : String
  originalSeed : String
  rng : PRNG
deriving DecidableEq, Repr

namespace SeededRandomGenerator

/-- `constructor(seed)`: `this.seed = seed || this.generateSeed()` — a falsy
(empty) seed argument is replaced by the result of `generateSeed()`, which
is built from `Math.random()` and is therefore nondeterministic; that
result is passed in as the explicit parameter `gen`, so every possible
outcome of the construction is `create seed gen` for some `gen`.
`originalSeed` copies the resolved seed, and the owned `seedrandom`
instance is seeded from it. -/
def create (seed : String) (gen : String) : SeededRandomGenerator :=
  { seed := if seed = "" then gen else seed
    originalSeed := if seed = "" then gen else seed
    rng := seedrandomInit (if seed = "" then gen else seed) }

/-- `random()`: draws from the generator, advancing its internal state. -/
def random (g : SeededRandomGenerator) : ℚ × SeededRandomGenerator :=
  let p := prngNext g.rng
  (p.1, { g with rng := p.2 })

/-- `randomRange(min, max) = min + random() * (max - min)`. -/
def randomRange (g : SeededRandomGenerator) (min max : ℚ) :
    ℚ × SeededRandomGenerator :=
  let p := g.random
  (min + p.1 * (max - min), p.2)

/-- `randomInt(min, max) = Math.floor(randomRange(min, max + 1))`. -/
def randomInt (g : SeededRandomGenerator) (min max : ℚ) :
    ℤ × SeededRandomGenerator :=
  let p := g.randomRange min (max + 1)
  (⌊p.1⌋, p.2)

/-- `choice(array) = array[randomInt(0, array.length - 1)]`; an
out-of-range index reads `undefined`, modelled as `none`. -/
def choice {α : Type} (g : SeededRandomGenerator) (array : List α) :
    Option α × SeededRandomGenerator :=
  let p := g.randomInt 0 ((array.length : ℚ) - 1)
  (array.get? p.1.toNat, p.2)

/-- The index computed inside `choice`. -/
def choiceIndex {α : Type} (g : SeededRandomGenerator) (array : List α) : ℕ :=
  (g.randomInt 0 ((array.length : ℚ) - 1)).1.toNat

/-- `reset()`: reinstalls `seedrandom(originalSeed)`. -/
def reset (g : SeededRandomGenerator) : SeededRandomGenerator :=
  { g with rng := seedrandomInit g.originalSeed }

/-- Draw `n` successive values via `random()`, returning the list of draws
and the final generator. -/
def drawN : ℕ → SeededRandomGenerator → List ℚ × SeededRandomGenerator
  | 0, g => ([], g)
  | n + 1, g =>
    let p := g.random
    let q := drawN n p.2
    (p.1 :: q.1, q.2)

/-- `shuffle`'s in-place destructuring swap
`[a[i], a[j]] = [a[j], a[i]]` on the copied array: when both indices are
in bounds it writes the two cells, otherwise (unreachable here, since the
loop keeps both indices in bounds) it leaves the list unchanged. -/
def listSwap {α : Type} (l : List α) (i j : ℕ) : List α :=
  match l[i]?, l[j]? with
  | some a, some b => (l.set i b).set j a
  | _, _ => l

/-- The Fisher–Yates loop `for (let i = length - 1; i > 0; i--)`:
the argument is the current loop index `i`; each iteration draws
`j = randomInt(0, i)` and swaps positions `i` and `j`. -/
def shuffleGo {α : Type} :
    ℕ → SeededRandomGenerator → List α → List α × SeededRandomGenerator
  | 0, g, l => (l, g)
  | i + 1, g, l =>
    let p := g.randomInt 0 ((i : ℚ) + 1)
    shuffleGo i p.2 (listSwap l (i + 1) p.1.toNat)

/-- `shuffle(array)`: copies the input and runs Fisher–Yates from the last
index down to 1; the input list is untouched (the model is pure, matching
the source's `[...array]` copy). -/
def shuffle {α : Type} (g : SeededRandomGenerator)
    (array : List α) : List α × SeededRandomGenerator :=
  shuffleGo (array.length - 1) g array

theorem perm_cons_set {α : Type} :
    ∀ (xs : List α) (m : ℕ) (b x : α), xs[m]? = some b →
      (b :: xs.set m x).Perm (x :: xs) := by
  intro xs
  induction xs with
  | nil => intro m b x h; simp at h
  | cons y ys ih =>
    intro m b x h
    cases m with
    | zero =>
      have hyb : y = b := by simpa using h
      subst hyb
      exact List.Perm.swap x y ys
    | succ k =>
      simp only [List.getElem?_cons_succ] at h
      exact (List.Perm.swap y b _).trans
        (((ih k b x h).cons y).trans (List.Perm.swap x y ys))

theorem listSwap_perm {α : Type} :
    ∀ (l : List α) (i j : ℕ), (listSwap l i j).Perm l := by
  intro l
  induction l with
  | nil => intro i j; simp [listSwap]
  | cons x xs ih =>
    intro i j
    unfold listSwap
    cases i with
    | zero =>
      cases j with
      | zero => simp
      | succ m =>
        cases h : xs[m]? with
        | none => simp [h]
        | some b =>
          simpa [h] using perm_cons_set xs m b x h
    | succ n =>
      cases h1 : xs[n]? with
      | none => simp [h1]
      | some a =>
        cases j with
        | zero =>
          simpa [h1] using perm_cons_set xs n a x h1
        | succ m =>
          cases h2 : xs[m]? with
          | none => simp [h1, h2]
          | some b =>
            have := ih n m
            unfold listSwap at this
            simpa [h1, h2] using (this.cons x)

theorem shuffleGo_perm {α : Type} :
    ∀ (i : ℕ) (g : SeededRandomGenerator) (l : List α),
      ((shuffleGo i g l).1).Perm l := by
  intro i
  induction i with
  | zero => intro g l; exact List.Perm.refl l
  | succ n ih =>
    intro g l
    exact (ih _ _).trans (listSwap_perm l (n + 1) _)

theorem random_snd_originalSeed (g : SeededRandomGenerator) :
    (g.random).2.originalSeed = g.originalSeed := rfl

theorem random_snd_seed (g : SeededRandomGenerator) :
    (g.random).2.seed = g.seed := rfl

theorem drawN_originalSeed :
    ∀ (n : ℕ) (g : SeededRandomGenerator),
      ((drawN n g).2).originalSeed = g.originalSeed := by
  intro n
  induction n with
  | zero => intro g; rfl
  | succ m ih =>
    intro g
    simp only [drawN]
    rw [ih (g.random).2, random_snd_originalSeed]

theorem drawN_seed :
    ∀ (n : ℕ) (g : SeededRandomGenerator),
      ((drawN n g).2).seed = g.seed := by
  intro n
  induction n with
  | zero => intro g; rfl
  | succ m ih =>
    intro g
    simp only [drawN]
    rw [ih (g.random).2, random_snd_seed]

/-- After any number of draws, `reset()` returns a generator whose entire
state equals the one the constructor built (same resolved seed `gen`
resolution included), because `originalSeed` is never touched by draws. -/
theorem reset_after_draws (s gen : String) (M : ℕ) :
    ((drawN M (create s gen)).2).reset = create s gen := by
  unfold reset
  rw [show ((drawN M (create s gen)).2).originalSeed = (create s gen).originalSeed from
      drawN_originalSeed M (create s gen),
    show ((drawN M (create s gen)).2).seed = (create s gen).seed from
      drawN_seed M (create s gen)]
  rfl

end SeededRandomGenerator

/-- C1 counterexample: for the seed `""` the claimed replay equality fails.
`"" || generateSeed()` is falsy, so each construction with seed `""`
installs its own `generateSeed()` result; with the first construction's
generated seed resolving to `"a"` and the fresh construction's to `"b"`,
the stream replayed after `reset()` differs from the fresh generator's
stream already at the first draw — while both generators were
"constructed with seed s" for s = `""`. -/
theorem claim_C1_counterexample :
    (SeededRandomGenerator.drawN 1
        ((SeededRandomGenerator.drawN 0
          (SeededRandomGenerator.create "" "a")).2.reset)).1 ≠
      (SeededRandomGenerator.drawN 1 (SeededRandomGenerator.create "" "b")).1 := by
  intro h
  have ha : (SeededRandomGenerator.drawN 1
      ((SeededRandomGenerator.drawN 0
        (SeededRandomGenerator.create "" "a")).2.reset)).1 =
      [prngVal 1536565073] := rfl
  have hb : (SeededRandomGenerator.drawN 1
      (SeededRandomGenerator.create "" "b")).1 = [prngVal 1538229598] := rfl
  rw [ha, hb] at h
  have h2 : prngVal 1536565073 = prngVal 1538229598 := by injection h
  exact absurd (prngVal_injective h2) (by norm_num)

/-- C1 (amended): for every truthy (non-empty) seed `s`, resetting a
seeded generator after any number `M` of prior draws replays exactly the
same `N`-value sequence as a freshly constructed generator with the same
seed, whatever `generateSeed()` results `gen`, `gen'` the two
constructions would have fallen back to (for non-empty `s` the fallback
is not taken).  For `s = ""` the constructor substitutes a nondeterministic
generated seed and the equality can fail (`claim_C1_counterexample`). -/
theorem claim_C1_reset_replays_fresh_stream (s gen gen' : String)
    (hs : s ≠ "") (M N : ℕ) :
    (SeededRandomGenerator.drawN N
        ((SeededRandomGenerator.drawN M
          (SeededRandomGenerator.create s gen)).2.reset)).1 =
      (SeededRandomGenerator.drawN N (SeededRandomGenerator.create s gen')).1 := by
  rw [SeededRandomGenerator.reset_after_draws]
  have hc : SeededRandomGenerator.create s gen =
      SeededRandomGenerator.create s gen' := by
    simp only [SeededRandomGenerator.create, if_neg hs]
  rw [hc]

/-- Witness for the amended C1 at the concrete seed `"x"`, two prior
draws, three replayed draws, and two distinct generated-seed resolutions. -/
theorem claim_C1_reset_replays_fresh_stream_witness :
    ("x" : String) ≠ "" ∧
    (SeededRandomGenerator.drawN 3
        ((SeededRandomGenerator.drawN 2
          (SeededRandomGenerator.create "x" "g1")).2.reset)).1 =
      (SeededRandomGenerator.drawN 3 (SeededRandomGenerator.create "x" "g2")).1 :=
  ⟨by decide, claim_C1_reset_replays_fresh_stream "x" "g1" "g2" (by decide) 2 3⟩

/-- C9: `shuffle` returns a permutation (identical multiset) of its input,
for every generator state and every input list; the input itself is left
untouched (the embedding is pure, mirroring the source's `[...array]`
copy before the Fisher–Yates loop). -/
theorem claim_C9_shuffle_is_permutation {α : Type}
    (g : SeededRandomGenerator) (xs : List α) :
    ((g.shuffle xs).1).Perm xs :=
  SeededRandomGenerator.shuffleGo_perm _ _ _

/-- C10: provided the underlying `random()` draw lies in `[0,1)`, the index
`randomInt(0, length-1)` computed inside `choice` is within bounds for a
non-empty array (so the access yields an element), while for the empty
array `choice` yields no element (index 0 of an empty array reads
`undefined`). -/
theorem claim_C10_choice_index_safe {α : Type}
    (g : SeededRandomGenerator) (array : List α)
    (h0 : 0 ≤ (g.random).1) (h1 : (g.random).1 < 1) :
    (array ≠ [] →
      g.choiceIndex array < array.length ∧ ((g.choice array).1).isSome = true) ∧
    (array = [] → (g.choice array).1 = none) := by
  have hidx : g.choiceIndex array =
      (⌊(g.random).1 * (array.length : ℚ)⌋).toNat := by
    unfold SeededRandomGenerator.choiceIndex SeededRandomGenerator.randomInt
      SeededRandomGenerator.randomRange
    ring_nf
  have hfst : (g.choice array).1 = array.get? (g.choiceIndex array) := rfl
  constructor
  · intro hne
    have hlen : 1 ≤ array.length := List.length_pos.mpr hne
    have hlenq : (1 : ℚ) ≤ (array.length : ℚ) := by exact_mod_cast hlen
    have hnn : 0 ≤ ⌊(g.random).1 * (array.length : ℚ)⌋ :=
      Int.floor_nonneg.mpr (mul_nonneg h0 (le_trans zero_le_one hlenq))
    have hlt : ⌊(g.random).1 * (array.length : ℚ)⌋ < (array.length : ℤ) := by
      apply Int.floor_lt.mpr
      push_cast
      calc (g.random).1 * (array.length : ℚ)
          < 1 * (array.length : ℚ) :=
            mul_lt_mul_of_pos_right h1 (lt_of_lt_of_le zero_lt_one hlenq)
        _ = (array.length : ℚ) := one_mul _
    have hbound : g.choiceIndex array < array.length := by
      rw [hidx]; omega
    refine ⟨hbound, ?_⟩
    rw [hfst, List.get?_eq_get hbound]
    rfl
  · intro hempty
    subst hempty
    rw [hfst]
    cases g.choiceIndex ([] : List α) <;> rfl

/-- Witness for C10 at a concrete generator and arrays. -/
theorem claim_C10_choice_index_safe_witness :
    ([10, 20, 30] ≠ ([] : List ℕ) →
      (SeededRandomGenerator.create "abc" "").choiceIndex [10, 20, 30] < 3 ∧
      (((SeededRandomGenerator.create "abc" "").choice [10, 20, 30]).1).isSome = true) ∧
    ([10, 20, 30] = ([] : List ℕ) →
      ((SeededRandomGenerator.create "abc" "").choice [10, 20, 30]).1 = none) :=
  claim_C10_choice_index_safe (SeededRandomGenerator.create "abc" "") [10, 20, 30]
    (prngNext_nonneg _) (prngNext_lt_one _)

/-! ## AnimationClock (animation utilities source file)

`AnimationTimeline` with `easingFunctions`.  Times are `performance.now()`
epochs in milliseconds, modelled as rationals.  `animationId : Bool` models
the `number | null` handle: whether a frame callback is currently
scheduled.  One invocation of the scheduled `animate` closure is modelled
by `animate`; the state it passes to `onFrame` (after writing
`currentTime`) is exposed through `reportedFrame`. -/

inductive EasingFunction where
  | linear
  | easeInQuad
  | easeOutQuad
  | easeInOutQuad
  | easeInCubic
  | easeOutCubic
  | easeInOutCubic
  | easeInQuart
  | easeOutQuart
  | easeInOutQuart
  | easeInBack
  | easeOutBack
  | easeInOutBack
  | bounce
deriving DecidableEq, Repr

/-- The easing table, with JavaScript float constants carried exactly as
rationals. -/
def easingFunctions : EasingFunction → ℚ → ℚ
  | .linear, t => t
  | .easeInQuad, t => t * t
  | .easeOutQuad, t => t * (2 - t)
  | .easeInOutQuad, t => if t < 1/2 then 2 * t * t else -1 + (4 - 2 * t) * t
  | .easeInCubic, t => t * t * t
  | .easeOutCubic, t => (t - 1) * (t - 1) * (t - 1) + 1
  | .easeInOutCubic, t =>
    if t < 1/2 then 4 * t * t * t
    else (t - 1) * (2 * t - 2) * (2 * t - 2) + 1
  | .easeInQuart, t => t * t * t * t
  | .easeOutQuart, t => 1 - (t - 1) * (t - 1) * (t - 1) * (t - 1)
  | .easeInOutQuart, t =>
    if t < 1/2 then 8 * t * t * t * t
    else 1 - 8 * (t - 1) * (t - 1) * (t - 1) * (t - 1)
  | .easeInBack, t =>
    let c1 : ℚ := 170158/100000
    let c3 : ℚ := c1 + 1
    c3 * t * t * t - c1 * t * t
  | .easeOutBack, t =>
    let c1 : ℚ := 170158/100000
    let c3 : ℚ := c1 + 1
    1 + c3 * (t - 1) ^ 3 + c1 * (t - 1) ^ 2
  | .easeInOutBack, t =>
    let c1 : ℚ := 170158/100000
    let c2 : ℚ := c1 * (61/40)
    if t < 1/2 then ((2 * t) ^ 2 * ((c2 + 1) * 2 * t - c2)) / 2
    else ((2 * t - 2) ^ 2 * ((c2 + 1) * (t * 2 - 2) + c2) + 2) / 2
  | .bounce, t =>
    let n1 : ℚ := 121/16
    let d1 : ℚ := 11/4
    if t < 1 / d1 then n1 * t * t
    else if t < 2 / d1 then n1 * (t - 3/2 / d1) * (t - 3/2 / d1) + 3/4
    else if t < 5/2 / d1 then n1 * (t - 9/4 / d1) * (t - 9/4 / d1) + 15/16
    else n1 * (t - 21/8 / d1) * (t - 21/8 / d1) + 63/64

structure AnimationTimeline where
  startTime : ℚ
  currentTime : ℚ
  isPlaying : Bool
  isPaused : Bool
  animationId : Bool
  duration : ℚ
  fps : ℚ
  loop : Bool
  easing : EasingFunction
deriving DecidableEq, Repr

namespace AnimationTimeline

/-- The class constructor: private fields start at `0 / false / null`. -/
def create (duration : ℚ) (fps : ℚ) (loop : Bool) (easing : EasingFunction) :
    AnimationTimeline :=
  { startTime := 0, currentTime := 0, isPlaying := false, isPaused := false
    animationId := false, duration := duration, fps := fps, loop := loop
    easing := easing }

/-- `getNormalizedTime()`; `t % 1` on `t = min(elapsed/duration, 1)` is
`Int.fract t` (these agree for the non-negative `t` JavaScript sees). -/
def getNormalizedTime (s : AnimationTimeline) : ℚ :=
  if s.duration = 0 then 0
  else
    let elapsed := (s.currentTime - s.startTime) / 1000
    let t := min (elapsed / s.duration) 1
    let t := if s.loop ∧ 1 ≤ t then Int.fract t else t
    easingFunctions s.easing t

/-- `getCurrentFrame() = Math.floor(elapsed * fps)`. -/
def getCurrentFrame (s : AnimationTimeline) : ℤ :=
  ⌊(s.currentTime - s.startTime) / 1000 * s.fps⌋

/-- `getTotalFrames()`. -/
def getTotalFrames (s : AnimationTimeline) : ℤ :=
  ⌊s.duration * s.fps⌋

/-- `stop()`: legal from any state; cancels any scheduled callback. -/
def stop (s : AnimationTimeline) : AnimationTimeline :=
  { s with isPlaying := false, isPaused := false, animationId := false }

/-- `play(onFrame)` called at epoch `now`: no-op if already playing,
otherwise sets `startTime := now` and schedules the `animate` callback. -/
def play (s : AnimationTimeline) (now : ℚ) : AnimationTimeline :=
  if s.isPlaying then s
  else { s with isPlaying := true, isPaused := false, startTime := now
                animationId := true }

/-- One invocation of the scheduled `animate` closure at epoch `now`:
writes `currentTime`, fires `onFrame`, then either reschedules (rebasing
`startTime` at a loop boundary) or, when done and not looping, stops. -/
def animate (s : AnimationTimeline) (now : ℚ) : AnimationTimeline :=
  let s1 := { s with currentTime := now }
  let elapsed := (now - s1.startTime) / 1000
  if elapsed < s1.duration ∨ s1.loop = true then
    let s2 := { s1 with animationId := true }
    if s2.loop = true ∧ s2.duration ≤ elapsed then { s2 with startTime := now }
    else s2
  else stop s1

/-- `pause()`: illegal unless playing and not paused; cancels the callback.
Note it records no pause epoch and leaves `isPlaying` set. -/
def pause (s : AnimationTimeline) : AnimationTimeline :=
  if ¬s.isPlaying = true ∨ s.isPaused = true then s
  else { s with isPaused := true, animationId := false }

/-- `resume()` called at epoch `now`: shifts `startTime` forward by
`now - currentTime` and calls `play()`. -/
def resume (s : AnimationTimeline) (now : ℚ) : AnimationTimeline :=
  if ¬s.isPaused = true then s
  else
    let s1 := { s with isPaused := false }
    let s2 := { s1 with startTime := s1.startTime + (now - s1.currentTime) }
    play s2 now

/-- `seekTo(normalizedTime)` at epoch `now`. -/
def seekTo (s : AnimationTimeline) (normalizedTime : ℚ) (now : ℚ) :
    AnimationTimeline :=
  { s with startTime := now - normalizedTime * s.duration * 1000 }

/-- `getIsPlaying()`. -/
def getIsPlaying (s : AnimationTimeline) : Bool :=
  s.isPlaying && !s.isPaused

/-- `getIsPaused()`. -/
def getIsPaused (s : AnimationTimeline) : Bool :=
  s.isPaused

/-- The frame number `onFrame` observes at a tick at epoch `now` (the
`animate` closure writes `currentTime := now` before invoking it). -/
def reportedFrame (s : AnimationTimeline) (now : ℚ) : ℤ :=
  getCurrentFrame { s with currentTime := now }

/-- The host scheduler at epoch `now`: the `animate` callback runs only
when one is scheduled; returns the new state and whether `onFrame` fired. -/
def tickIfScheduled (s : AnimationTimeline) (now : ℚ) :
    AnimationTimeline × Bool :=
  if s.animationId = true then (animate s now, true) else (s, false)

/-- Whether `onFrame` fires at least once along a sequence of host
scheduler instants. -/
def anyFired (s : AnimationTimeline) : List ℚ → Bool
  | [] => false
  | t :: ts =>
    let p := tickIfScheduled s t
    p.2 || anyFired p.1 ts

theorem anyFired_of_unscheduled (s : AnimationTimeline)
    (h : s.animationId = false) : ∀ ts : List ℚ, anyFired s ts = false := by
  intro ts
  induction ts with
  | nil => rfl
  | cons t ts ih =>
    simp only [anyFired, tickIfScheduled, h]
    simpa using ih

theorem animate_startTime_of_not_loop (s : AnimationTimeline) (now : ℚ)
    (hloop : s.loop = false) : (s.animate now).startTime = s.startTime := by
  unfold animate stop
  simp [hloop]
  split <;> rfl

theorem animate_fps (s : AnimationTimeline) (now : ℚ) :
    (s.animate now).fps = s.fps := by
  unfold animate stop
  by_cases hc : ((now - s.startTime) / 1000 < s.duration ∨ s.loop = true)
  · by_cases hc2 : (s.loop = true ∧ s.duration ≤ (now - s.startTime) / 1000)
    · simp [hc, hc2]
    · simp [hc, hc2]
  · simp [hc]

end AnimationTimeline

/-- The clock state after `play()` at epoch 0 and one frame tick at
epoch 500, for a looping 2-second 30-fps timeline. -/
def c3AfterTick : AnimationTimeline :=
  ((AnimationTimeline.create 2 30 true .linear).play 0).animate 500

/-- `c3AfterTick` after `pause()` and then `resume()` at epoch 1200. -/
def c3AfterResume : AnimationTimeline :=
  (c3AfterTick.pause).resume 1200

/-- C3: the code's `resume()` does shift `startTime` (by `now` minus the
last tick's epoch, not by the time since `pause()` was called), and it
clears `isPaused`; but because `pause()` leaves `isPlaying` set, the
`play()` call inside `resume()` returns immediately and never schedules
the frame callback again: after `resume()` no callback is outstanding, so
the clock is "Playing" by flags while nothing will ever tick.  Concrete
run: play at epoch 0, one tick at 500, pause, resume at 1200. -/
theorem claim_C3_resume_schedules_no_callback :
    c3AfterTick.pause.isPlaying = true ∧
    c3AfterResume.isPlaying = true ∧ c3AfterResume.isPaused = false ∧
    c3AfterResume.startTime = 700 ∧
    c3AfterResume.animationId = false ∧
    (∀ ts : List ℚ, AnimationTimeline.anyFired c3AfterResume ts = false) := by
  have h1 : c3AfterTick = ⟨0, 500, true, false, true, 2, 30, true, .linear⟩ := by
    show ((AnimationTimeline.create 2 30 true .linear).play 0).animate 500 = _
    norm_num [AnimationTimeline.create, AnimationTimeline.play,
      AnimationTimeline.animate, AnimationTimeline.stop]
  have h2 : c3AfterTick.pause = ⟨0, 500, true, true, false, 2, 30, true, .linear⟩ := by
    rw [h1]
    norm_num [AnimationTimeline.pause]
  have h3 : c3AfterResume = ⟨700, 500, true, false, false, 2, 30, true, .linear⟩ := by
    show (c3AfterTick.pause).resume 1200 = _
    rw [h2]
    norm_num [AnimationTimeline.resume, AnimationTimeline.play]
  refine ⟨?_, ?_, ?_, ?_, ?_, ?_⟩
  · rw [h2]
  · rw [h3]
  · rw [h3]
  · rw [h3]
  · rw [h3]
  · intro ts
    exact AnimationTimeline.anyFired_of_unscheduled _ (by rw [h3]) ts

/-- C4 counterexample: with `loop` enabled (`duration = 1`, `fps = 60`),
the tick at epoch 1000 reports frame 60 and rebases `startTime`, and the
next tick at 1100 reports frame 6 — the reported frame index decreases
across the loop boundary while the clock is still playing. -/
theorem claim_C4_counterexample :
    let s0 := (AnimationTimeline.create 1 60 true .linear).play 0
    let s1 := s0.animate 1000
    s0.isPlaying = true ∧ s1.isPlaying = true ∧
    AnimationTimeline.reportedFrame s0 1000 = 60 ∧
    AnimationTimeline.reportedFrame s1 1100 = 6 ∧
    AnimationTimeline.reportedFrame s1 1100 <
      AnimationTimeline.reportedFrame s0 1000 := by
  intro s0 s1
  have e0 : AnimationTimeline.reportedFrame s0 1000 = 60 := by
    show (⌊_⌋ : ℤ) = 60
    norm_num [AnimationTimeline.create, AnimationTimeline.play, s0]
  have h1 : s1 = { s0 with currentTime := 1000, animationId := true
                           startTime := 1000 } := by
    show s0.animate 1000 = _
    norm_num [AnimationTimeline.create, AnimationTimeline.play,
      AnimationTimeline.animate, AnimationTimeline.stop, s0]
  have e1 : AnimationTimeline.reportedFrame s1 1100 = 6 := by
    rw [h1]
    show (⌊_⌋ : ℤ) = 6
    norm_num [AnimationTimeline.create, AnimationTimeline.play, s0]
  refine ⟨rfl, ?_, e0, e1, ?_⟩
  · rw [h1]
    rfl
  · rw [e0, e1]
    norm_num

/-- C4 amended: with `loop` disabled, while the clock is playing the frame
index reported for successive ticks is non-decreasing and non-negative
(for non-decreasing tick epochs not before `startTime` and `fps ≥ 0`); the
loop-enabled half of the original claim fails, since rebasing `startTime`
to the boundary tick's epoch restarts the reported frame near 0. -/
theorem claim_C4_frame_monotone_when_not_looping (s : AnimationTimeline)
    (n1 n2 : ℚ) (hplay : s.isPlaying = true) (hloop : s.loop = false)
    (hfps : 0 ≤ s.fps) (h0 : s.startTime ≤ n1) (h12 : n1 ≤ n2) :
    0 ≤ AnimationTimeline.reportedFrame s n1 ∧
    AnimationTimeline.reportedFrame s n1 ≤
      AnimationTimeline.reportedFrame (s.animate n1) n2 := by
  unfold AnimationTimeline.reportedFrame AnimationTimeline.getCurrentFrame
  simp only [AnimationTimeline.animate_startTime_of_not_loop s n1 hloop,
    AnimationTimeline.animate_fps s n1]
  constructor
  · apply Int.floor_nonneg.mpr
    apply mul_nonneg _ hfps
    apply div_nonneg _ (by norm_num)
    linarith
  · apply Int.floor_le_floor
    apply mul_le_mul_of_nonneg_right _ hfps
    apply div_le_div_of_nonneg_right ?_ (by norm_num)
    linarith

/-- Witness for the amended C4 at a concrete non-looping clock. -/
theorem claim_C4_frame_monotone_when_not_looping_witness :
    0 ≤ AnimationTimeline.reportedFrame
        ((AnimationTimeline.create 1 60 false .linear).play 0) 100 ∧
    AnimationTimeline.reportedFrame
        ((AnimationTimeline.create 1 60 false .linear).play 0) 100 ≤
      AnimationTimeline.reportedFrame
        (((AnimationTimeline.create 1 60 false .linear).play 0).animate 100) 200 :=
  claim_C4_frame_monotone_when_not_looping _ 100 200 rfl rfl
    (by norm_num [AnimationTimeline.create, AnimationTimeline.play])
    (by norm_num [AnimationTimeline.create, AnimationTimeline.play])
    (by norm_num)

/-- C5: with `loop` disabled, a tick whose elapsed time has reached the
duration transitions the clock to Idle (`isPlaying` and `isPaused` both
false), leaves no callback scheduled, and `onFrame` never fires at any
later host instant. -/
theorem claim_C5_nonloop_autostop (s : AnimationTimeline) (now : ℚ)
    (hplay : s.isPlaying = true) (hloop : s.loop = false)
    (hdone : s.duration ≤ (now - s.startTime) / 1000) :
    (s.animate now).isPlaying = false ∧ (s.animate now).isPaused = false ∧
    (s.animate now).animationId = false ∧
    (∀ ts : List ℚ, AnimationTimeline.anyFired (s.animate now) ts = false) := by
  have h1 : ¬((now - s.startTime) / 1000 < s.duration) := not_lt.mpr hdone
  have hs : s.animate now = AnimationTimeline.stop { s with currentTime := now } := by
    unfold AnimationTimeline.animate
    simp [hloop, h1]
  refine ⟨?_, ?_, ?_, ?_⟩
  · rw [hs]; rfl
  · rw [hs]; rfl
  · rw [hs]; rfl
  · intro ts
    exact AnimationTimeline.anyFired_of_unscheduled _ (by rw [hs]; rfl) ts

/-- Witness for C5: `duration = 1`, `fps = 60`, `loop = false`, played at
epoch 0, final tick at 1500 ms. -/
theorem claim_C5_nonloop_autostop_witness :
    ((((AnimationTimeline.create 1 60 false .linear).play 0).animate 1500).isPlaying = false) ∧
    ((((AnimationTimeline.create 1 60 false .linear).play 0).animate 1500).isPaused = false) ∧
    ((((AnimationTimeline.create 1 60 false .linear).play 0).animate 1500).animationId = false) ∧
    (∀ ts : List ℚ, AnimationTimeline.anyFired
      (((AnimationTimeline.create 1 60 false .linear).play 0).animate 1500) ts = false) :=
  claim_C5_nonloop_autostop _ 1500 rfl rfl
    (by norm_num [AnimationTimeline.create, AnimationTimeline.play])

/-! ## ParameterDirectory (parameter parsing/injection source file)

`parseParametersFromCode`, `parseParameterOptions`,
`convertToProjectParameters` and `injectParametersIntoCode`.  JavaScript
numbers are rationals-or-NaN (`JNum`); a parameter value is
`number | boolean | string` plus the `undefined` that JavaScript leaves
behind on malformed input (`PValue`).  The two regexes are embedded as
explicit character scanners with the engine's greedy/backtracking
behaviour spelled out. -/

inductive ParameterKind where
  | number
  | boolean
  | color
  | select
  | vector2
  | vector3
  | range
deriving DecidableEq, Repr

/-- A JavaScript number: a rational, or `NaN` (what `parseFloat` returns
on garbage). -/
inductive JNum where
  | num (q : ℚ)
  | nan
deriving DecidableEq, Repr

/-- A parameter value: `number | boolean | string`, plus `undefined` for
the malformed corners where JavaScript stores `undefined`. -/
inductive PValue where
  | num (v : JNum)
  | bool (b : Bool)
  | str (s : String)
  | undef
deriving DecidableEq, Repr

/-- JavaScript `\s` (the whitespace class), restricted to the ASCII part
plus NBSP; the remaining exotic Unicode space code points never appear in
the sources under test. -/
def jsWhitespaceChar (c : Char) : Bool :=
  c = ' ' ∨ c = '\t' ∨ c = '\n' ∨ c = '\r' ∨
  c = '\x0b' ∨ c = '\x0c' ∨ c = ' '

/-- JavaScript `\w`: `[A-Za-z0-9_]`. -/
def wordChar (c : Char) : Bool :=
  ('a' ≤ c ∧ c ≤ 'z') ∨ ('A' ≤ c ∧ c ≤ 'Z') ∨ ('0' ≤ c ∧ c ≤ '9') ∨ c = '_'

def isDigitChar (c : Char) : Bool := '0' ≤ c ∧ c ≤ '9'

/-- JavaScript `String.prototype.split` with a one-character separator. -/
def splitOnChar (sep : Char) : List Char → List (List Char)
  | [] => [[]]
  | c :: cs =>
    if c = sep then [] :: splitOnChar sep cs
    else
      match splitOnChar sep cs with
      | [] => [[c]]
      | g :: gs => (c :: g) :: gs

/-- JavaScript `String.prototype.trim`. -/
def trimChars (cs : List Char) : List Char :=
  ((cs.dropWhile jsWhitespaceChar).reverse.dropWhile jsWhitespaceChar).reverse

/-- `value.toLowerCase() === pat` for an ASCII comparison. -/
def lowerNat (c : Char) : ℕ :=
  if 65 ≤ c.toNat ∧ c.toNat ≤ 90 then c.toNat + 32 else c.toNat

def jsToLowerEq (cs pat : List Char) : Bool :=
  cs.map lowerNat = pat.map lowerNat

def digitsToNat (ds : List Char) : ℕ :=
  ds.foldl (fun n c => n * 10 + (c.toNat - 48)) 0

/-- `parseFloat` on the decimal fragment the option grammar produces:
skip leading whitespace, optional sign, digits with an optional decimal
point; anything that yields no digit is `NaN`.  (The exponent and
`Infinity` forms of `parseFloat` are never exercised by `@param`
annotations and are not modelled.) -/
def jsParseFloat (s : List Char) : JNum :=
  let cs := s.dropWhile jsWhitespaceChar
  let (sgn, cs) : ℚ × List Char :=
    match cs with
    | '-' :: rest => (-1, rest)
    | '+' :: rest => (1, rest)
    | _ => (1, cs)
  let intPart := cs.takeWhile isDigitChar
  let cs2 := cs.drop intPart.length
  let fracPart :=
    match cs2 with
    | '.' :: rest => rest.takeWhile isDigitChar
    | _ => []
  if intPart.isEmpty ∧ fracPart.isEmpty then .nan
  else
    .num (sgn * ((digitsToNat intPart : ℚ) +
      (digitsToNat fracPart : ℚ) / (10 ^ fracPart.length : ℕ)))

/-- `getDefaultValue` per kind. -/
def getDefaultValue : ParameterKind → PValue
  | .number => .num (.num 0)
  | .boolean => .bool false
  | .color => .str "#000000"
  | .select => .str ""
  | .vector2 => .str "0, 0"
  | .vector3 => .str "0, 0, 0"
  | .range => .str "0, 100"

structure ParsedParameter where
  name : String
  type : ParameterKind
  defaultValue : PValue
  min : Option JNum
  max : Option JNum
  step : Option JNum
  options : Option (List String)
  description : Option String
deriving DecidableEq, Repr

/-- One `key=value` pair of the option bracket (already comma-split and
trimmed by the caller, exactly as in the source). -/
def applyOptionPair (param : ParsedParameter) (pair : List Char) : ParsedParameter :=
  let parts := (splitOnChar '=' pair).map trimChars
  let key := parts.headD []
  let value : Option (List Char) := parts[1]?
  if key = "min".data then
    { param with min := some (match value with
        | some v => jsParseFloat v
        | none => .nan) }
  else if key = "max".data then
    { param with max := some (match value with
        | some v => jsParseFloat v
        | none => .nan) }
  else if key = "step".data then
    { param with step := some (match value with
        | some v => jsParseFloat v
        | none => .nan) }
  else if key = "default".data then
    match param.type with
    | .number =>
      { param with defaultValue := .num (match value with
          | some v => jsParseFloat v
          | none => .nan) }
    | .boolean =>
      -- a bare `default` with no value raises a TypeError in JavaScript;
      -- unreachable from the annotation grammar, modelled as false
      { param with defaultValue := .bool (match value with
          | some v => jsToLowerEq v "true".data
          | none => false) }
    | _ =>
      { param with defaultValue := (match value with
          | some v => .str (String.mk v)
          | none => .undef) }
  else if key = "options".data then
    match value with
    | some v =>
      let opts := ((splitOnChar ',' v).map trimChars).map String.mk
      let param := { param with options := some opts }
      if param.type = .select ∧ 0 < opts.length then
        { param with defaultValue := .str (opts.headD "") }
      else param
    | none => param  -- `undefined.split` raises in JavaScript; unreachable
  else param

/-- `parseParameterOptions(param, optionsString)`: note the comma split
happens before the `key=value` split, exactly as in the source. -/
def parseParameterOptions (param : ParsedParameter) (optionsString : String) :
    ParsedParameter :=
  ((splitOnChar ',' optionsString.data).map trimChars).foldl applyOptionPair param

/-- Strip an exact character sequence from the front. -/
def stripLit : List Char → List Char → Option (List Char)
  | [], cs => some cs
  | _ :: _, [] => none
  | p :: ps, c :: cs => if c = p then stripLit ps cs else none

/-- The `(number|boolean|color|select|vector2|vector3|range)` alternation,
tried in the regex's left-to-right order. -/
def matchKind (cs : List Char) : Option (ParameterKind × List Char) :=
  match stripLit "number".data cs with
  | some r => some (.number, r)
  | none =>
  match stripLit "boolean".data cs with
  | some r => some (.boolean, r)
  | none =>
  match stripLit "color".data cs with
  | some r => some (.color, r)
  | none =>
  match stripLit "select".data cs with
  | some r => some (.select, r)
  | none =>
  match stripLit "vector2".data cs with
  | some r => some (.vector2, r)
  | none =>
  match stripLit "vector3".data cs with
  | some r => some (.vector3, r)
  | none =>
  match stripLit "range".data cs with
  | some r => some (.range, r)
  | none => none

/-- A maximal run of characters outside an excluded two-character class,
as used by `[^[\n]+` and `[^;\n]+`: returns `(run, rest)` when the run is
non-empty. -/
def classRun (x1 x2 : Char) (cs : List Char) : Option (List Char × List Char) :=
  let run := cs.takeWhile (fun c => ¬(c = x1 ∨ c = x2))
  if run.isEmpty then none else some (run, cs.drop run.length)

/-- Backtracking for `\s*` followed by a character class: try giving the
class the suffix after `m` whitespace characters, backing off one
character at a time (the greedy `\s*` yields characters back to the class
until it can match).  Returns `(m, run, rest)`. -/
def wsThenClass (x1 x2 : Char) (cs : List Char) :
    ℕ → Option (ℕ × List Char × List Char)
  | 0 =>
    match classRun x1 x2 cs with
    | some (run, rest) => some (0, run, rest)
    | none => none
  | m + 1 =>
    match classRun x1 x2 (cs.drop (m + 1)) with
    | some (run, rest) => some (m + 1, run, rest)
    | none => wsThenClass x1 x2 cs m

/-- The optional description group `(?:\s*-\s*([^[\n]+))?`. -/
def matchDesc (cs : List Char) : Option (List Char × List Char) :=
  let afterWs := cs.dropWhile jsWhitespaceChar
  match afterWs with
  | '-' :: rest =>
    match wsThenClass '[' '\n' rest (rest.takeWhile jsWhitespaceChar).length with
    | some (_, run, rest') => some (run, rest')
    | none => none
  | _ => none

/-- The optional options group `(?:\s*\[([^\]]+)\])?`. -/
def matchOpts (cs : List Char) : Option (List Char × List Char) :=
  let afterWs := cs.dropWhile jsWhitespaceChar
  match afterWs with
  | '[' :: rest =>
    let content := rest.takeWhile (fun c => ¬c = ']')
    if content.isEmpty then none
    else
      match rest.drop content.length with
      | ']' :: rest' => some (content, rest')
      | _ => none
  | _ => none

/-- Assembling one matched annotation: the loop body of
`parseParametersFromCode`. -/
def mkParsedParameter (kind : ParameterKind) (name : String)
    (desc : Option String) (opts : Option String) : ParsedParameter :=
  let param : ParsedParameter :=
    { name := name, type := kind, defaultValue := getDefaultValue kind
      min := none, max := none, step := none, options := none
      description := desc.map (fun d => String.mk (trimChars d.data)) }
  match opts with
  | some o => parseParameterOptions param o
  | none => param

/-- One attempted match of the `@param` regex at the current position;
returns the parameter built from the capture groups and the remainder
after the match. -/
def matchParamAt (cs : List Char) : Option (ParsedParameter × List Char) :=
  match stripLit "@param".data cs with
  | none => none
  | some r1 =>
    let w1 := r1.takeWhile jsWhitespaceChar
    if w1.isEmpty then none
    else
      match stripLit "\x7b".data (r1.drop w1.length) with
      | none => none
      | some r2 =>
        match matchKind r2 with
        | none => none
        | some (kind, r3) =>
          match stripLit "\x7d".data r3 with
          | none => none
          | some r4 =>
            let w2 := r4.takeWhile jsWhitespaceChar
            if w2.isEmpty then none
            else
              let r5 := r4.drop w2.length
              let nm := r5.takeWhile wordChar
              if nm.isEmpty then none
              else
                let r6 := r5.drop nm.length
                let (desc, r7) : Option (List Char) × List Char :=
                  match matchDesc r6 with
                  | some (d, rest) => (some d, rest)
                  | none => (none, r6)
                let (opts, r8) : Option (List Char) × List Char :=
                  match matchOpts r7 with
                  | some (o, rest) => (some o, rest)
                  | none => (none, r7)
                some (mkParsedParameter kind (String.mk nm)
                  (desc.map String.mk) (opts.map String.mk), r8)

/-- The global scan of `paramRegex.exec` over the code: try a match at
every position, left to right, continuing after each match.  The fuel is
the remaining string length; every step consumes at least one character,
so `scanParamsAux cs.length cs` is the full scan. -/
def scanParamsAux : ℕ → List Char → List ParsedParameter
  | 0, _ => []
  | _ + 1, [] => []
  | fuel + 1, c :: cs =>
    match matchParamAt (c :: cs) with
    | some (p, rest) => p :: scanParamsAux fuel rest
    | none => scanParamsAux fuel cs

/-- `parseParametersFromCode(code)`. -/
def parseParametersFromCode (code : String) : List ParsedParameter :=
  scanParamsAux code.data.length code.data

/-- `ProjectParameter` (the store's shape): a parsed schema entry carrying
a current `value`. -/
structure ProjectParameter where
  name : String
  type : ParameterKind
  value : PValue
  min : Option JNum
  max : Option JNum
  step : Option JNum
  options : Option (List String)
  description : Option String
deriving DecidableEq, Repr

/-- `convertToProjectParameters`: the parsed default becomes the value. -/
def convertToProjectParameters (ps : List ParsedParameter) :
    List ProjectParameter :=
  ps.map fun p =>
    { name := p.name, type := p.type, value := p.defaultValue, min := p.min
      max := p.max, step := p.step, options := p.options
      description := p.description }

/-- JavaScript `String(n)` for the numbers the injector serializes;
integral values (the only ones any claim evaluates) render exactly as in
JavaScript.  Non-integral rationals stand in for binary floats, whose
shortest-round-trip decimal printing is not modelled digit-for-digit. -/
def jsNumString (j : JNum) : String :=
  match j with
  | .nan => "NaN"
  | .num q => if q.den = 1 then toString q.num else toString q

/-- JavaScript `String(value)`. -/
def jsStringOf (v : PValue) : String :=
  match v with
  | .num j => jsNumString j
  | .bool b => cond b "true" "false"
  | .str s => s
  | .undef => "undefined"

/-- `components.join(', ')`. -/
def joinSep (sep : List Char) : List (List Char) → List Char
  | [] => []
  | [x] => x
  | x :: y :: xs => x ++ sep ++ joinSep sep (y :: xs)

/-- The `switch (param.type)` that serializes the current value before
injection. -/
def serializeValue (param : ProjectParameter) : String :=
  match param.type with
  | .color | .select => "\"" ++ jsStringOf param.value ++ "\""
  | .vector2 | .vector3 | .range =>
    let comps := (splitOnChar ',' (jsStringOf param.value).data).map trimChars
    String.mk ('[' :: joinSep ", ".data comps ++ [']'])
  | _ => jsStringOf param.value

/-- The `(?:const|let|var)` alternation of the injection regex. -/
def matchKeyword (cs : List Char) : Option (List Char × List Char) :=
  match stripLit "const".data cs with
  | some r => some ("const".data, r)
  | none =>
  match stripLit "let".data cs with
  | some r => some ("let".data, r)
  | none =>
  match stripLit "var".data cs with
  | some r => some ("var".data, r)
  | none => none

/-- `\s*` then `[^;\n]+` after the `=`, with the greedy whitespace run
giving characters back to the class as needed; returns the number of
whitespace characters kept in group 1, the expression run, and the
remainder. -/
def exprBack (r5 : List Char) : ℕ → Option (ℕ × List Char × List Char)
  | 0 =>
    match classRun ';' '\n' r5 with
    | some (run, rest) => some (0, run, rest)
    | none => none
  | m + 1 =>
    match classRun ';' '\n' (r5.drop (m + 1)) with
    | some (run, rest) => some (m + 1, run, rest)
    | none => exprBack r5 m

/-- One attempted match of the injection regex
`((?:const|let|var)\s+NAME\s*=\s*)[^;\n]+` at the current position:
returns capture group 1 and the remainder after the match. -/
def matchDecl (name : List Char) (cs : List Char) :
    Option (List Char × List Char) :=
  match matchKeyword cs with
  | none => none
  | some (kw, r1) =>
    let w1 := r1.takeWhile jsWhitespaceChar
    if w1.isEmpty then none
    else
      match stripLit name (r1.drop w1.length) with
      | none => none
      | some r3 =>
        let w2 := r3.takeWhile jsWhitespaceChar
        match r3.drop w2.length with
        | [] => none
        | c :: r5 =>
          if c = '=' then
            match exprBack r5 (r5.takeWhile jsWhitespaceChar).length with
            | none => none
            | some (m, _, rest) =>
              some (kw ++ w1 ++ name ++ w2 ++ '=' :: r5.take m, rest)
          else none

theorem stripLit_length :
    ∀ (p cs r : List Char), stripLit p cs = some r →
      r.length + p.length = cs.length := by
  intro p
  induction p with
  | nil => intro cs r h; cases h; simp
  | cons x xs ih =>
    intro cs r h
    cases cs with
    | nil => simp [stripLit] at h
    | cons c cs' =>
      by_cases hc : c = x
      · simp only [stripLit, if_pos hc] at h
        have := ih cs' r h
        simp [List.length_cons]
        omega
      · simp [stripLit, hc] at h

theorem matchKeyword_length (cs kw r : List Char)
    (h : matchKeyword cs = some (kw, r)) : r.length < cs.length := by
  unfold matchKeyword at h
  cases h1 : stripLit "const".data cs with
  | some r1 =>
    rw [h1] at h
    cases h
    have := stripLit_length _ _ _ h1
    simp at this
    omega
  | none =>
    rw [h1] at h
    cases h2 : stripLit "let".data cs with
    | some r2 =>
      rw [h2] at h
      cases h
      have := stripLit_length _ _ _ h2
      simp at this
      omega
    | none =>
      rw [h2] at h
      cases h3 : stripLit "var".data cs with
      | some r3 =>
        rw [h3] at h
        cases h
        have := stripLit_length _ _ _ h3
        simp at this
        omega
      | none => rw [h3] at h; cases h

theorem takeWhile_length_le {α : Type} (p : α → Bool) :
    ∀ l : List α, (l.takeWhile p).length ≤ l.length := by
  intro l
  induction l with
  | nil => simp
  | cons a l ih =>
    by_cases hp : p a
    · simp [List.takeWhile_cons, hp]
      omega
    · simp [List.takeWhile_cons, hp]

theorem classRun_length (x1 x2 : Char) (cs run rest : List Char)
    (h : classRun x1 x2 cs = some (run, rest)) : rest.length < cs.length := by
  unfold classRun at h
  by_cases he : (cs.takeWhile (fun c => ¬(c = x1 ∨ c = x2))).isEmpty
  · rw [if_pos he] at h
    cases h
  · rw [if_neg he] at h
    cases h
    have h1 : 1 ≤ (cs.takeWhile (fun c => ¬(c = x1 ∨ c = x2))).length := by
      cases hw : cs.takeWhile (fun c => ¬(c = x1 ∨ c = x2)) with
      | nil => rw [hw] at he; simp at he
      | cons a l => simp [hw]
    have h2 := takeWhile_length_le (fun c => decide ¬(c = x1 ∨ c = x2)) cs
    simp only [List.length_drop]
    omega

theorem exprBack_length (r5 : List Char) :
    ∀ (k m : ℕ) (e rest : List Char), exprBack r5 k = some (m, e, rest) →
      rest.length < r5.length := by
  intro k
  induction k with
  | zero =>
    intro m e rest h
    unfold exprBack at h
    cases hc : classRun ';' '\n' r5 with
    | some p =>
      rw [hc] at h
      cases h
      exact classRun_length _ _ _ _ _ (by rw [hc])
    | none => rw [hc] at h; cases h
  | succ k ih =>
    intro m e rest h
    unfold exprBack at h
    cases hc : classRun ';' '\n' (r5.drop (k + 1)) with
    | some p =>
      rw [hc] at h
      cases h
      have h1 := classRun_length _ _ _ _ _ hc
      have h2 : (r5.drop (k + 1)).length ≤ r5.length := by
        simp [List.length_drop]
      omega
    | none =>
      rw [hc] at h
      exact ih m e rest h

theorem matchDecl_rest_lt (name cs g1 rest : List Char)
    (h : matchDecl name cs = some (g1, rest)) : rest.length < cs.length := by
  unfold matchDecl at h
  cases hk : matchKeyword cs with
  | none => rw [hk] at h; cases h
  | some p =>
    obtain ⟨kw, r1⟩ := p
    rw [hk] at h
    simp only at h
    by_cases hw1 : (r1.takeWhile jsWhitespaceChar).isEmpty
    · simp [hw1] at h
    · simp only [hw1, Bool.false_eq_true, if_false] at h
      cases hs : stripLit name (r1.drop (r1.takeWhile jsWhitespaceChar).length) with
      | none => rw [hs] at h; cases h
      | some r3 =>
        rw [hs] at h
        simp only at h
        cases hd : r3.drop (r3.takeWhile jsWhitespaceChar).length with
        | nil => rw [hd] at h; cases h
        | cons c r5 =>
          rw [hd] at h
          by_cases hc : c = '='
          · subst hc
            simp only [if_pos rfl] at h
            cases he : exprBack r5 (r5.takeWhile jsWhitespaceChar).length with
            | none => rw [he] at h; cases h
            | some q =>
              obtain ⟨m, e, rest'⟩ := q
              rw [he] at h
              cases h
              have h1 := exprBack_length _ _ _ _ _ he
              have h2 : r5.length + 1 =
                  (r3.drop (r3.takeWhile jsWhitespaceChar).length).length := by
                rw [hd]; simp
              have h3 : (r3.drop (r3.takeWhile jsWhitespaceChar).length).length ≤
                  r3.length := by
                simp [List.length_drop]
              have h4 := stripLit_length _ _ _ hs
              have h5 : (r1.drop (r1.takeWhile jsWhitespaceChar).length).length ≤
                  r1.length := by
                simp [List.length_drop]
              have h6 := matchKeyword_length cs kw r1 hk
              omega
          · simp [hc] at h


/-- `String.prototype.replace` with the global flag: scan left to right,
at each position try the declaration regex; on a match emit group 1
followed by the injected value and continue after the match, otherwise
copy one character.  The fuel is the remaining length; each step consumes
at least one character (`matchDecl_rest_lt`), so `cs.length` fuel runs
the scan to completion. -/
def scanFuel (name val : List Char) : ℕ → List Char → List Char
  | 0, _ => []
  | _ + 1, [] => []
  | fuel + 1, c :: cs =>
    match matchDecl name (c :: cs) with
    | some (g1, rest) => g1 ++ val ++ scanFuel name val fuel rest
    | none => c :: scanFuel name val fuel cs

theorem scanFuel_nil (name val : List Char) (f : ℕ) :
    scanFuel name val f [] = [] := by
  cases f <;> rfl

/-- Any fuel at least the string length computes the same scan. -/
theorem scanFuel_congr (name val : List Char) :
    ∀ (n f1 f2 : ℕ) (cs : List Char), cs.length ≤ n → cs.length ≤ f1 →
      cs.length ≤ f2 → scanFuel name val f1 cs = scanFuel name val f2 cs := by
  intro n
  induction n with
  | zero =>
    intro f1 f2 cs hn _ _
    have : cs = [] := List.length_eq_zero.mp (Nat.le_zero.mp hn)
    subst this
    rw [scanFuel_nil, scanFuel_nil]
  | succ n ih =>
    intro f1 f2 cs hn h1 h2
    cases cs with
    | nil => rw [scanFuel_nil, scanFuel_nil]
    | cons c cs2 =>
      have hl : cs2.length + 1 ≤ n + 1 := by simpa using hn
      cases f1 with
      | zero => simp at h1
      | succ a =>
        cases f2 with
        | zero => simp at h2
        | succ b =>
          simp only [scanFuel]
          cases hm : matchDecl name (c :: cs2) with
          | some p =>
            obtain ⟨g1, rest⟩ := p
            have hr := matchDecl_rest_lt name (c :: cs2) g1 rest hm
            simp only [List.length_cons] at hr h1 h2
            dsimp only
            rw [ih a b rest (by omega) (by omega) (by omega)]
          | none =>
            simp only [List.length_cons] at h1 h2
            dsimp only
            rw [ih a b cs2 (by omega) (by omega) (by omega)]

/-- `injectParametersIntoCode(code, parameters)`: for each parameter,
globally rewrite every `(const|let|var) name = expr` declaration to
assign the serialized current value. -/
def injectParametersIntoCode (code : String)
    (parameters : List ProjectParameter) : String :=
  parameters.foldl
    (fun updatedCode param =>
      String.mk (scanFuel param.name.data (serializeValue param).data
        updatedCode.data.length updatedCode.data))
    code

/-- The concrete parameter `size = 7` used by the injection claims. -/
def sizeParam7 : ProjectParameter :=
  { name := "size", type := .number, value := .num (.num 7), min := none
    max := none, step := none, options := none, description := none }

/-- The keyword alternative used by one declaration. -/
inductive DeclKeyword where
  | kconst
  | klet
  | kvar
deriving DecidableEq, Repr

/-- The source text of a declaration keyword. -/
def keywordText : DeclKeyword → List Char
  | .kconst => "const".data
  | .klet => "let".data
  | .kvar => "var".data

/-- One `(const|let|var) name = expr` declaration instance of the
injection regex: the keyword, the whitespace runs around the name and the
`=`, the expression body, the terminating `;` or newline (the `[^;\n]+`
class stops there), and a trailing whitespace run before whatever
follows. -/
structure DeclShape where
  kw : DeclKeyword
  w1 : List Char
  w2 : List Char
  w3 : List Char
  body : List Char
  term : Char
  trail : List Char
deriving DecidableEq, Repr

/-- Well-formedness of one declaration instance: `w1` is a non-empty
whitespace run (the regex's `\s+`), `w2` and `w3` are whitespace runs
(`\s*`), the body is a non-empty run of characters outside `;`/newline
whose first character is not whitespace (so the greedy `\s*` of capture
group 1 takes exactly `w3`), the terminator is `;` or a newline, and the
trailing run is whitespace. -/
def declOk (d : DeclShape) : Bool :=
  (!d.w1.isEmpty) && d.w1.all jsWhitespaceChar &&
  d.w2.all jsWhitespaceChar && d.w3.all jsWhitespaceChar &&
  (!d.body.isEmpty) && d.body.all (fun c => ¬(c = ';' ∨ c = '\n')) &&
  d.body.head?.all (fun c => !jsWhitespaceChar c) &&
  (d.term = ';' ∨ d.term = '\n') &&
  d.trail.all jsWhitespaceChar

/-- A parameter name as produced by the `@param` parser: a non-empty
`\w+` word. -/
def nameOk (name : List Char) : Bool :=
  (!name.isEmpty) && name.all wordChar

/-- The source text of one declaration instance. -/
def declText (name : List Char) (d : DeclShape) : List Char :=
  keywordText d.kw ++ d.w1 ++ name ++ d.w2 ++
    ('=' :: d.w3) ++ d.body ++ (d.term :: d.trail)

/-- The same declaration after injection: capture group 1 (everything
through the whitespace after `=`) followed by the serialized value, with
every byte outside the expression unchanged. -/
def declTextOut (name val : List Char) (d : DeclShape) : List Char :=
  keywordText d.kw ++ d.w1 ++ name ++ d.w2 ++
    ('=' :: d.w3) ++ val ++ (d.term :: d.trail)

/-- A source consisting of consecutive declaration instances. -/
def declsText (name : List Char) (ds : List DeclShape) : List Char :=
  List.flatten (ds.map (declText name))

/-- The same source with every declaration rewritten. -/
def declsTextOut (name val : List Char) (ds : List DeclShape) : List Char :=
  List.flatten (ds.map (declTextOut name val))

theorem stripLit_append : ∀ (p t : List Char), stripLit p (p ++ t) = some t := by
  intro p
  induction p with
  | nil => intro t; rfl
  | cons x xs ih => intro t; simp [stripLit, ih]

theorem stripLit_cons_ne (x : Char) (p : List Char) (c : Char) (t : List Char)
    (h : c ≠ x) : stripLit (x :: p) (c :: t) = none := by
  simp [stripLit, h]

theorem matchKeyword_build (kw : DeclKeyword) (t : List Char) :
    matchKeyword (keywordText kw ++ t) = some (keywordText kw, t) := by
  cases kw with
  | kconst =>
    unfold matchKeyword keywordText
    rw [stripLit_append "const".data t]
  | klet =>
    unfold matchKeyword keywordText
    rw [show stripLit "const".data ("let".data ++ t) = none from
        stripLit_cons_ne 'c' "onst".data 'l' ("et".data ++ t) (by decide),
      stripLit_append "let".data t]
  | kvar =>
    unfold matchKeyword keywordText
    rw [show stripLit "const".data ("var".data ++ t) = none from
        stripLit_cons_ne 'c' "onst".data 'v' ("ar".data ++ t) (by decide),
      show stripLit "let".data ("var".data ++ t) = none from
        stripLit_cons_ne 'l' "et".data 'v' ("ar".data ++ t) (by decide),
      stripLit_append "var".data t]

theorem matchKeyword_none_head (c : Char) (t : List Char)
    (hc : c ≠ 'c') (hl : c ≠ 'l') (hv : c ≠ 'v') :
    matchKeyword (c :: t) = none := by
  unfold matchKeyword
  rw [show stripLit "const".data (c :: t) = none from
      stripLit_cons_ne 'c' "onst".data c t hc,
    show stripLit "let".data (c :: t) = none from
      stripLit_cons_ne 'l' "et".data c t hl,
    show stripLit "var".data (c :: t) = none from
      stripLit_cons_ne 'v' "ar".data c t hv]

/-- At a position whose first character is not `c`, `l` or `v`, the
declaration regex cannot match: the keyword alternation already fails. -/
theorem matchDecl_none_head (name : List Char) (c : Char) (t : List Char)
    (hc : c ≠ 'c') (hl : c ≠ 'l') (hv : c ≠ 'v') :
    matchDecl name (c :: t) = none := by
  unfold matchDecl
  rw [matchKeyword_none_head c t hc hl hv]

theorem whitespace_ne_kwhead (c : Char) (h : jsWhitespaceChar c = true) :
    c ≠ 'c' ∧ c ≠ 'l' ∧ c ≠ 'v' := by
  simp only [jsWhitespaceChar, decide_eq_true_eq] at h
  rcases h with h | h | h | h | h | h | h <;>
    (subst h; exact ⟨by decide, by decide, by decide⟩)

theorem wordChar_not_whitespace (c : Char) (h : wordChar c = true) :
    jsWhitespaceChar c = false := by
  simp only [jsWhitespaceChar, decide_eq_false_iff_not]
  intro hw
  rcases hw with h1 | h1 | h1 | h1 | h1 | h1 | h1 <;>
    (subst h1; exact absurd h (by decide))

theorem takeWhile_append_eq (p : Char → Bool) :
    ∀ (u v : List Char), u.all p = true →
      (v = [] ∨ ∃ c t, v = c :: t ∧ p c = false) →
      (u ++ v).takeWhile p = u := by
  intro u
  induction u with
  | nil =>
    intro v _ hv
    rcases hv with h | ⟨c, t, hct, hc⟩
    · subst h; rfl
    · subst hct
      simp [List.takeWhile_cons, hc]
  | cons x xs ih =>
    intro v hall hv
    simp only [List.all_cons, Bool.and_eq_true] at hall
    simp [List.takeWhile_cons, hall.1, ih v hall.2 hv]

theorem exprBack_build (w3 body : List Char) (term : Char) (u : List Char)
    (hne : body ≠ [])
    (hall : body.all (fun c => ¬(c = ';' ∨ c = '\n')) = true)
    (hterm : term = ';' ∨ term = '\n') :
    exprBack (w3 ++ (body ++ term :: u)) w3.length =
      some (w3.length, body, term :: u) := by
  have hcr : classRun ';' '\n' (body ++ term :: u) = some (body, term :: u) := by
    unfold classRun
    have htw : (body ++ term :: u).takeWhile (fun c => ¬(c = ';' ∨ c = '\n')) =
        body :=
      takeWhile_append_eq _ body _ hall
        (Or.inr ⟨term, u, rfl, by rcases hterm with h | h <;> simp [h]⟩)
    rw [htw]
    have hbf : body.isEmpty = false := by
      cases hx : body with
      | nil => exact absurd hx hne
      | cons a b => rfl
    rw [if_neg (by simp [hbf])]
    rw [List.drop_left body (term :: u)]
  cases w3 with
  | nil =>
    show exprBack ([] ++ (body ++ term :: u)) 0 = some (0, body, term :: u)
    rw [List.nil_append]
    unfold exprBack
    rw [hcr]
  | cons x xs =>
    show exprBack ((x :: xs) ++ (body ++ term :: u)) (xs.length + 1) =
      some ((x :: xs).length, body, term :: u)
    unfold exprBack
    rw [show ((x :: xs) ++ (body ++ term :: u)).drop (xs.length + 1) =
        body ++ term :: u from by
      simpa using List.drop_left (x :: xs) (body ++ term :: u)]
    rw [hcr]
    simp

/-- The declaration regex matches a well-formed declaration instance at
the head of the input: capture group 1 is everything through the
whitespace after `=`, and the remainder starts at the terminator. -/
theorem matchDecl_build (name : List Char) (d : DeclShape) (u : List Char)
    (hname : nameOk name = true) (hd : declOk d = true) :
    matchDecl name (keywordText d.kw ++ (d.w1 ++ (name ++ (d.w2 ++
        ('=' :: (d.w3 ++ (d.body ++ (d.term :: u)))))))) =
      some (keywordText d.kw ++ (d.w1 ++ (name ++ (d.w2 ++ ('=' :: d.w3)))),
        d.term :: u) := by
  simp only [declOk, Bool.and_eq_true] at hd
  obtain ⟨⟨⟨⟨⟨⟨⟨⟨hw1ne, hw1⟩, hw2⟩, hw3⟩, hbne⟩, hball⟩, hbhead⟩, hterm⟩,
    htrail⟩ := hd
  simp only [nameOk, Bool.and_eq_true] at hname
  obtain ⟨hnne, hnall⟩ := hname
  obtain ⟨n0, nt, hn⟩ : ∃ n0 nt, name = n0 :: nt := by
    cases hx : name with
    | nil => rw [hx] at hnne; simp at hnne
    | cons a b => exact ⟨a, b, rfl⟩
  obtain ⟨b0, bt, hb⟩ : ∃ b0 bt, d.body = b0 :: bt := by
    cases hx : d.body with
    | nil => rw [hx] at hbne; simp at hbne
    | cons a b => exact ⟨a, b, rfl⟩
  have hn0 : wordChar n0 = true := by
    rw [hn, List.all_cons, Bool.and_eq_true] at hnall
    exact hnall.1
  have hb0 : jsWhitespaceChar b0 = false := by
    rw [hb] at hbhead
    simpa using hbhead
  have htermb : (fun c => decide ¬(c = ';' ∨ c = '\n')) d.term = false := by
    have := of_decide_eq_true hterm
    rcases this with h | h <;> simp [h]
  have htermp : d.term = ';' ∨ d.term = '\n' := of_decide_eq_true hterm
  -- step 1: the keyword alternation
  unfold matchDecl
  rw [matchKeyword_build d.kw (d.w1 ++ (name ++ (d.w2 ++
    ('=' :: (d.w3 ++ (d.body ++ (d.term :: u)))))))]
  -- step 2: `\s+` then the literal name
  have htw1 : (d.w1 ++ (name ++ (d.w2 ++
      ('=' :: (d.w3 ++ (d.body ++ (d.term :: u))))))).takeWhile
        jsWhitespaceChar = d.w1 :=
    takeWhile_append_eq _ d.w1 _ hw1
      (Or.inr ⟨n0, nt ++ (d.w2 ++ ('=' :: (d.w3 ++ (d.body ++ (d.term :: u))))),
        by rw [hn]; simp, wordChar_not_whitespace n0 hn0⟩)
  have hw1f : d.w1.isEmpty = false := by
    cases hx : d.w1 with
    | nil => rw [hx] at hw1ne; simp at hw1ne
    | cons a b => rfl
  simp only [htw1]
  rw [if_neg (by simp [hw1f])]
  rw [List.drop_left d.w1 _]
  rw [stripLit_append name (d.w2 ++ ('=' :: (d.w3 ++ (d.body ++ (d.term :: u)))))]
  -- step 3: `\s*` then the `=`
  have htw2 : (d.w2 ++ ('=' :: (d.w3 ++ (d.body ++
      (d.term :: u))))).takeWhile jsWhitespaceChar = d.w2 :=
    takeWhile_append_eq _ d.w2 _ hw2
      (Or.inr ⟨'=', d.w3 ++ (d.body ++ (d.term :: u)), rfl, by decide⟩)
  simp only [htw2]
  rw [List.drop_left d.w2 _]
  simp only [if_true]
  -- step 4: `\s*` then `[^;\n]+` via the backtracking helper
  have htw3 : (d.w3 ++ (d.body ++ (d.term :: u))).takeWhile
      jsWhitespaceChar = d.w3 :=
    takeWhile_append_eq _ d.w3 _ hw3
      (Or.inr ⟨b0, bt ++ (d.term :: u), by rw [hb]; simp, hb0⟩)
  rw [htw3]
  rw [exprBack_build d.w3 d.body d.term u (by rw [hb]; simp) hball htermp]
  simp only []
  rw [List.take_left d.w3 _]
  simp [List.append_assoc]

theorem scanFuel_match_step (name val : List Char) (f : ℕ) :
    ∀ (cs g1 rest : List Char), cs ≠ [] →
      matchDecl name cs = some (g1, rest) →
      scanFuel name val (f + 1) cs = g1 ++ val ++ scanFuel name val f rest := by
  intro cs g1 rest hne hm
  cases cs with
  | nil => exact absurd rfl hne
  | cons c cs2 =>
    simp only [scanFuel]
    rw [hm]

theorem scanFuel_skip_step (name val : List Char) (f : ℕ) (c : Char)
    (cs : List Char) (h : matchDecl name (c :: cs) = none) :
    scanFuel name val (f + 1) (c :: cs) = c :: scanFuel name val f cs := by
  simp only [scanFuel]
  rw [h]

/-- The scan copies a whitespace run unchanged: no declaration can start
at a whitespace character. -/
theorem scanFuel_whitespace_run (name val : List Char) :
    ∀ (w t : List Char) (f : ℕ), w.all jsWhitespaceChar = true →
      scanFuel name val (f + w.length) (w ++ t) = w ++ scanFuel name val f t := by
  intro w
  induction w with
  | nil => intro t f _; simp
  | cons c cs ih =>
    intro t f hall
    simp only [List.all_cons, Bool.and_eq_true] at hall
    obtain ⟨hkc, hkl, hkv⟩ := whitespace_ne_kwhead c hall.1
    have hnone : matchDecl name (c :: (cs ++ t)) = none :=
      matchDecl_none_head name c (cs ++ t) hkc hkl hkv
    show scanFuel name val (f + (cs.length + 1)) (c :: (cs ++ t)) =
      (c :: cs) ++ (scanFuel name val f t)
    rw [show f + (cs.length + 1) = (f + cs.length) + 1 from rfl]
    rw [scanFuel_skip_step name val (f + cs.length) c (cs ++ t) hnone]
    rw [ih t f hall.2]
    rfl

/-- Scanning a source of consecutive well-formed declarations of `name`
rewrites every single one of them, for any injected value and any fuel at
least the source length. -/
theorem scan_decls (name val : List Char) (hname : nameOk name = true) :
    ∀ (ds : List DeclShape), (∀ d ∈ ds, declOk d = true) →
      ∀ f, (declsText name ds).length ≤ f →
        scanFuel name val f (declsText name ds) = declsTextOut name val ds := by
  intro ds
  induction ds with
  | nil =>
    intro _ f _
    simp [declsText, declsTextOut, scanFuel_nil]
  | cons d ds ih =>
    intro hall f hf
    have hd : declOk d = true := hall d (List.mem_cons_self d ds)
    have hds : ∀ x ∈ ds, declOk x = true :=
      fun x hx => hall x (List.mem_cons_of_mem d hx)
    have htrail : d.trail.all jsWhitespaceChar = true := by
      simp only [declOk, Bool.and_eq_true] at hd
      exact hd.2
    have htermp : d.term = ';' ∨ d.term = '\n' := by
      simp only [declOk, Bool.and_eq_true] at hd
      exact of_decide_eq_true hd.1.2
    obtain ⟨htc, htl, htv⟩ : d.term ≠ 'c' ∧ d.term ≠ 'l' ∧ d.term ≠ 'v' := by
      rcases htermp with h | h <;> (rw [h]; exact ⟨by decide, by decide, by decide⟩)
    simp only [declsText, declsTextOut, List.map_cons, List.flatten_cons,
      declText, declTextOut, List.append_assoc, List.cons_append] at hf ⊢
    have hm := matchDecl_build name d
      (d.trail ++ List.flatten (ds.map (declText name))) hname hd
    have hrest := matchDecl_rest_lt name _ _ _ hm
    simp only [List.length_append, List.length_cons] at hrest hf
    obtain ⟨f1, rfl⟩ : ∃ f1, f = f1 + 1 := ⟨f - 1, by omega⟩
    rw [scanFuel_match_step name val f1 _ _ _ (by simp) hm]
    obtain ⟨f2, rfl⟩ : ∃ f2, f1 = f2 + 1 := ⟨f1 - 1, by omega⟩
    rw [scanFuel_skip_step name val f2 d.term _
      (matchDecl_none_head name d.term _ htc htl htv)]
    have hf2 : d.trail.length + (List.flatten (ds.map (declText name))).length ≤
        f2 := by omega
    rw [show f2 = (f2 - d.trail.length) + d.trail.length by omega]
    rw [scanFuel_whitespace_run name val d.trail
      (List.flatten (ds.map (declText name))) (f2 - d.trail.length) htrail]
    rw [show scanFuel name val (f2 - d.trail.length)
        (List.flatten (ds.map (declText name))) =
        declsTextOut name val ds from
      ih hds (f2 - d.trail.length)
        (show (List.flatten (ds.map (declText name))).length ≤
          f2 - d.trail.length by omega)]
    simp [declsTextOut, List.append_assoc]

/-- C6: injecting `{size: 7}` into `const size = 5;` yields exactly
`const size = 7;`; a source with three declarations of the same name
(`const`/`let`/`var`, one inside a nested block) has all three rewritten;
and for every parameter and every source made of well-formed
`(const|let|var) name = expr` declarations of that parameter's name, all
of the declarations are rewritten to the parameter's serialized value with
every other byte unchanged — the replacement is global, not first-match. -/
theorem claim_C6_inject_rewrites_every_declaration :
    (injectParametersIntoCode "const size = 5;" [sizeParam7] =
      "const size = 7;") ∧
    (injectParametersIntoCode
        "const size = 5;\nfunction f() \x7b\n  let size = 2;\n  var size = 3;\n\x7d"
        [sizeParam7] =
      "const size = 7;\nfunction f() \x7b\n  let size = 7;\n  var size = 7;\n\x7d") ∧
    (∀ (param : ProjectParameter) (ds : List DeclShape),
      nameOk param.name.data = true → (∀ d ∈ ds, declOk d = true) →
      injectParametersIntoCode (String.mk (declsText param.name.data ds))
          [param] =
        String.mk (declsTextOut param.name.data
          (serializeValue param).data ds)) := by
  refine ⟨by decide, by decide, ?_⟩
  intro param ds hn hds
  exact congrArg String.mk
    (scan_decls param.name.data (serializeValue param).data hn ds hds _ le_rfl)

/-- A concrete `const` declaration instance used by the C6 witness. -/
def declConst5 : DeclShape :=
  { kw := .kconst, w1 := " ".data, w2 := " ".data, w3 := " ".data,
    body := "5".data, term := ';', trail := "\n".data }

/-- A concrete `let` declaration instance used by the C6 witness. -/
def declLet23 : DeclShape :=
  { kw := .klet, w1 := "  ".data, w2 := [], w3 := [],
    body := "2 + 3".data, term := '\n', trail := [] }

/-- A concrete `var` declaration instance used by the C6 witness. -/
def declVarCall : DeclShape :=
  { kw := .kvar, w1 := "\t".data, w2 := " ".data, w3 := [],
    body := "foo(1, 2)".data, term := ';', trail := [] }

/-- Witness for C6's universal conjunct at the concrete parameter
`size = 7` and a three-declaration source (`const`/`let`/`var` with
varied whitespace and expressions). -/
theorem claim_C6_inject_rewrites_every_declaration_witness :
    nameOk (ProjectParameter.name sizeParam7).data = true ∧
    (∀ d ∈ [declConst5, declLet23, declVarCall], declOk d = true) ∧
    injectParametersIntoCode
        (String.mk (declsText (ProjectParameter.name sizeParam7).data
          [declConst5, declLet23, declVarCall])) [sizeParam7] =
      String.mk (declsTextOut (ProjectParameter.name sizeParam7).data
        (serializeValue sizeParam7).data [declConst5, declLet23, declVarCall]) :=
  ⟨by decide, by decide,
    claim_C6_inject_rewrites_every_declaration.2.2 sizeParam7
      [declConst5, declLet23, declVarCall] (by decide) (by decide)⟩

/-- C7: for a select annotation with `[options=red,blue,green]` and no
explicit default, the parser returns `options = ["red"]` — only the first
entry, because the comma split runs before the `key=value` split — with
the default set to that first entry.  The full-list behaviour the claim
(and the parser's own doc comment) describes does not hold. -/
theorem claim_C7_select_options_truncated :
    parseParametersFromCode
        "// @param {select} c - pick [options=red,blue,green]" =
      [{ name := "c", type := .select, defaultValue := .str "red"
         min := none, max := none, step := none
         options := some ["red"], description := some "pick" }] ∧
    (["red"] : List String) ≠ ["red", "blue", "green"] :=
  ⟨by decide, by decide⟩

/-! ## Parameter reconciliation (ParameterPanel effect)

The `useEffect` in `ParameterPanel` that reconciles the stored parameter
list against a freshly parsed schema, built on the store actions
`removeParameter` (filter by name) and `addParameter` (append).  The
effect's guard compares only the *sorted name lists*; the per-entry pass
looks entries up in the snapshot it captured (`currentProject.parameters`
at entry, here `orig`) while mutating the live list `L`. -/

/-- JavaScript `!==` on an optional number field (`NaN !== NaN` is true,
`undefined !== undefined` is false). -/
def jnumNeq : Option JNum → Option JNum → Bool
  | some .nan, _ => true
  | _, some .nan => true
  | some (.num a), some (.num b) => decide (a ≠ b)
  | some (.num _), none => true
  | none, some (.num _) => true
  | none, none => false

/-- The disjunction deciding whether a parameter's definition changed:
`type`, `min`, `max`, `step`, `JSON.stringify(options)` (equal strings
iff equal lists), `description`. -/
def defDiffers (e p : ProjectParameter) : Bool :=
  decide (e.type ≠ p.type) || jnumNeq e.min p.min || jnumNeq e.max p.max ||
  jnumNeq e.step p.step || decide (e.options ≠ p.options) ||
  decide (e.description ≠ p.description)

def paramNames (l : List ProjectParameter) : List String :=
  l.map (fun p => p.name)

/-- `parameters.map(p => p.name).sort()`: a deterministic sort of the
name list (the source's default lexicographic sort; only equality of the
two sorted lists is ever consumed, which any fixed total order decides
identically). -/
def sortedNames (ps : List ProjectParameter) : List String :=
  List.insertionSort (fun a b => a ≤ b) (paramNames ps)

/-- The guard `parametersChanged`: lengths differ, or some position of
the two sorted name lists differs — i.e. the sorted name lists are not
equal. -/
def parametersChanged (existing newParams : List ProjectParameter) : Bool :=
  decide (sortedNames existing ≠ sortedNames newParams)

/-- The body of `newParams.forEach`: look the name up in the snapshot
`orig`; a new name is appended with its schema default; a changed
definition is removed from the live list and re-appended keeping the old
value iff the type is unchanged; an unchanged definition keeps the stored
entry. -/
def reconcileStep (orig : List ProjectParameter)
    (L : List ProjectParameter) (p : ProjectParameter) :
    List ProjectParameter :=
  match orig.find? (fun q => q.name == p.name) with
  | none => L ++ [p]
  | some existing =>
    if defDiffers existing p then
      (L.filter (fun q => q.name != p.name)) ++
        [{ p with value :=
            if existing.type = p.type then existing.value else p.value }]
    else L

/-- The whole reconciliation effect: skipped entirely when the sorted
name lists agree; otherwise names absent from the new schema are removed,
then each new entry is processed by `reconcileStep`. -/
def reconcileParameters (existing newParams : List ProjectParameter) :
    List ProjectParameter :=
  if parametersChanged existing newParams then
    newParams.foldl (reconcileStep existing)
      (existing.filter (fun q => newParams.any (fun p => p.name == q.name)))
  else existing

/-- The C2 scenario: one parameter whose kind changes from number to
boolean while the name set is unchanged. -/
def exC2 : List ProjectParameter :=
  [{ name := "size", type := .number, value := .num (.num 5), min := none
     max := none, step := none, options := none, description := none }]

def npC2 : List ProjectParameter :=
  [{ name := "size", type := .boolean, value := .bool false, min := none
     max := none, step := none, options := none, description := none }]

/-- C2: when the set of parameter names is unchanged but a parameter's
kind differs, the effect's guard (which compares only sorted *names*)
skips reconciliation entirely: the old value and old kind survive,
instead of being reset to the new schema default as the claim states. -/
theorem claim_C2_kind_only_change_is_skipped :
    reconcileParameters exC2 npC2 = exC2 ∧
    reconcileParameters exC2 npC2 ≠ npC2 :=
  ⟨by decide, by decide⟩

theorem paramNames_filter (f : String → Bool) :
    ∀ l : List ProjectParameter,
      paramNames (l.filter (fun q => f q.name)) = (paramNames l).filter f := by
  intro l
  induction l with
  | nil => rfl
  | cons p l ih =>
    by_cases h : f p.name
    · simp only [paramNames, List.filter_cons, h, if_true, List.map_cons]
      simp only [paramNames] at ih
      rw [ih]
    · simp only [paramNames, List.filter_cons, h, if_false, List.map_cons]
      simp only [paramNames] at ih
      simp [h, ih]

theorem findName_isSome_iff (l : List ProjectParameter) (n : String) :
    (l.find? (fun q => q.name == n)).isSome ↔ n ∈ paramNames l := by
  rw [List.find?_isSome]
  constructor
  · rintro ⟨x, hx, hpx⟩
    have he : x.name = n := by simpa using hpx
    exact he ▸ List.mem_map_of_mem _ hx
  · intro h
    obtain ⟨x, hx, he⟩ := List.mem_map.mp h
    exact ⟨x, hx, by simp [he]⟩

theorem findName_none_iff (l : List ProjectParameter) (n : String) :
    l.find? (fun q => q.name == n) = none ↔ n ∉ paramNames l := by
  rw [List.find?_eq_none]
  constructor
  · intro h hmem
    obtain ⟨x, hx, he⟩ := List.mem_map.mp hmem
    exact h x hx (by simp [he])
  · intro h x hx hpx
    have he : x.name = n := by simpa using hpx
    exact h (he ▸ List.mem_map_of_mem _ hx)

theorem perm_filter_bne_append (ns : List String) (n : String)
    (h : ns.Nodup) (hm : n ∈ ns) : (ns.filter (· != n) ++ [n]).Perm ns := by
  rw [← h.erase_eq_filter n]
  exact List.perm_append_comm.trans (List.perm_cons_erase hm).symm

theorem perm_of_nodup_mem_iff {l1 l2 : List String} (h1 : l1.Nodup)
    (h2 : l2.Nodup) (hm : ∀ x, x ∈ l1 ↔ x ∈ l2) : l1.Perm l2 := by
  rw [List.perm_iff_count]
  intro a
  by_cases ha : a ∈ l1
  · rw [List.count_eq_one_of_mem h1 ha, List.count_eq_one_of_mem h2 ((hm a).mp ha)]
  · rw [List.count_eq_zero.mpr ha,
      List.count_eq_zero.mpr (fun hb => ha ((hm a).mpr hb))]

theorem sortedNames_eq_of_perm {l1 l2 : List ProjectParameter}
    (h : (paramNames l1).Perm (paramNames l2)) :
    sortedNames l1 = sortedNames l2 := by
  unfold sortedNames
  apply List.eq_of_perm_of_sorted (r := fun a b : String => a ≤ b)
  · exact (List.perm_insertionSort _ _).trans
      (h.trans (List.perm_insertionSort _ _).symm)
  · exact List.sorted_insertionSort _ _
  · exact List.sorted_insertionSort _ _

theorem fold_names_perm (orig : List ProjectParameter) :
    ∀ (todo L : List ProjectParameter),
      (paramNames todo).Nodup → (paramNames L).Nodup →
      (∀ p ∈ todo, (p.name ∈ paramNames L ↔ p.name ∈ paramNames orig)) →
      (paramNames (todo.foldl (reconcileStep orig) L)).Perm
        (paramNames L ++ paramNames (todo.filter
          (fun p => (orig.find? (fun q => q.name == p.name)).isNone))) := by
  intro todo
  induction todo with
  | nil =>
    intro L _ hL _
    simp [paramNames]
  | cons p todo ih =>
    intro L hT hL hmem
    have hTc : p.name ∉ paramNames todo ∧ (paramNames todo).Nodup := by
      have : (p.name :: paramNames todo).Nodup := hT
      exact List.nodup_cons.mp this
    rw [List.foldl_cons]
    cases hf : orig.find? (fun q => q.name == p.name) with
    | none =>
      have hpnotorig : p.name ∉ paramNames orig := (findName_none_iff orig p.name).mp hf
      have hpnotL : p.name ∉ paramNames L :=
        fun hc => hpnotorig ((hmem p (List.mem_cons_self p todo)).mp hc)
      have step : reconcileStep orig L p = L ++ [p] := by
        unfold reconcileStep
        rw [hf]
      rw [step]
      have hnamesapp : paramNames (L ++ [p]) = paramNames L ++ [p.name] := by
        simp [paramNames]
      have hL' : (paramNames (L ++ [p])).Nodup := by
        rw [hnamesapp]
        simp [List.nodup_append, hL, hpnotL]
      have hmem' : ∀ q ∈ todo,
          (q.name ∈ paramNames (L ++ [p]) ↔ q.name ∈ paramNames orig) := by
        intro q hq
        have hqname : q.name ∈ paramNames todo := List.mem_map_of_mem _ hq
        have hqp : q.name ≠ p.name := fun he => hTc.1 (he ▸ hqname)
        rw [hnamesapp]
        rw [List.mem_append]
        constructor
        · rintro (h | h)
          · exact (hmem q (List.mem_cons_of_mem p hq)).mp h
          · simp at h
            exact absurd h hqp
        · intro h
          exact Or.inl ((hmem q (List.mem_cons_of_mem p hq)).mpr h)
      have key := ih (L ++ [p]) hTc.2 hL' hmem'
      have hfiltercons : (p :: todo).filter
          (fun p => (orig.find? (fun q => q.name == p.name)).isNone) =
          p :: todo.filter
            (fun p => (orig.find? (fun q => q.name == p.name)).isNone) := by
        rw [List.filter_cons]
        simp [hf]
      rw [hfiltercons]
      refine key.trans ?_
      rw [hnamesapp]
      have : paramNames (p :: todo.filter
          (fun p => (orig.find? (fun q => q.name == p.name)).isNone)) =
          p.name :: paramNames (todo.filter
            (fun p => (orig.find? (fun q => q.name == p.name)).isNone)) := rfl
      rw [this, List.append_assoc]
      exact List.Perm.refl _
    | some e =>
      have hpinorig : p.name ∈ paramNames orig := by
        have hs : (orig.find? (fun q => q.name == p.name)).isSome := by
          rw [hf]; rfl
        exact (findName_isSome_iff orig p.name).mp hs
      have hpinL : p.name ∈ paramNames L :=
        (hmem p (List.mem_cons_self p todo)).mpr hpinorig
      have hfiltercons : (p :: todo).filter
          (fun p => (orig.find? (fun q => q.name == p.name)).isNone) =
          todo.filter
            (fun p => (orig.find? (fun q => q.name == p.name)).isNone) := by
        rw [List.filter_cons]
        simp [hf]
      rw [hfiltercons]
      by_cases hd : defDiffers e p
      · have step : reconcileStep orig L p =
            (L.filter (fun q => q.name != p.name)) ++
              [{ p with value :=
                  if e.type = p.type then e.value else p.value }] := by
          unfold reconcileStep
          rw [hf]
          dsimp only
          rw [if_pos hd]
        rw [step]
        have hnames' : paramNames ((L.filter (fun q => q.name != p.name)) ++
            [{ p with value := if e.type = p.type then e.value else p.value }]) =
            (paramNames L).filter (· != p.name) ++ [p.name] := by
          simp only [paramNames, List.map_append, List.map_cons, List.map_nil]
          congr 1
          exact paramNames_filter (· != p.name) L
        have hperm : (paramNames ((L.filter (fun q => q.name != p.name)) ++
            [{ p with value := if e.type = p.type then e.value else p.value }])).Perm
            (paramNames L) := by
          rw [hnames']
          exact perm_filter_bne_append (paramNames L) p.name hL hpinL
        have hL' : (paramNames ((L.filter (fun q => q.name != p.name)) ++
            [{ p with value := if e.type = p.type then e.value else p.value }])).Nodup :=
          hperm.symm.nodup hL
        have hmem' : ∀ q ∈ todo,
            (q.name ∈ paramNames ((L.filter (fun q => q.name != p.name)) ++
              [{ p with value := if e.type = p.type then e.value else p.value }]) ↔
              q.name ∈ paramNames orig) := by
          intro q hq
          rw [hperm.mem_iff]
          exact hmem q (List.mem_cons_of_mem p hq)
        exact (ih _ hTc.2 hL' hmem').trans (hperm.append_right _)
      · have step : reconcileStep orig L p = L := by
          unfold reconcileStep
          rw [hf]
          dsimp only
          rw [if_neg hd]
        rw [step]
        exact ih L hTc.2 hL (fun q hq => hmem q (List.mem_cons_of_mem p hq))

theorem reconcile_of_not_changed (a b : List ProjectParameter)
    (h : parametersChanged a b = false) : reconcileParameters a b = a := by
  unfold reconcileParameters
  rw [h]
  rfl

theorem reconcile_names_perm (ex np : List ProjectParameter)
    (hex : (paramNames ex).Nodup) (hnp : (paramNames np).Nodup) :
    (paramNames (np.foldl (reconcileStep ex)
        (ex.filter (fun q => np.any (fun p => p.name == q.name))))).Perm
      (paramNames np) := by
  have hL1names : paramNames
      (ex.filter (fun q => np.any (fun p => p.name == q.name))) =
      (paramNames ex).filter (fun x => np.any (fun p => p.name == x)) :=
    paramNames_filter (fun x => np.any (fun p => p.name == x)) ex
  have hL1nodup : (paramNames
      (ex.filter (fun q => np.any (fun p => p.name == q.name)))).Nodup := by
    rw [hL1names]
    exact hex.filter _
  have hmem0 : ∀ p ∈ np,
      (p.name ∈ paramNames (ex.filter (fun q => np.any (fun p => p.name == q.name))) ↔
        p.name ∈ paramNames ex) := by
    intro p hp
    rw [hL1names]
    constructor
    · intro h
      exact (List.mem_filter.mp h).1
    · intro h
      refine List.mem_filter.mpr ⟨h, ?_⟩
      exact List.any_eq_true.mpr ⟨p, hp, by simp⟩
  have key := fold_names_perm ex np
    (ex.filter (fun q => np.any (fun p => p.name == q.name))) hnp hL1nodup hmem0
  have hB : paramNames (np.filter
      (fun p => (ex.find? (fun q => q.name == p.name)).isNone)) =
      (paramNames np).filter
        (fun x => (ex.find? (fun q => q.name == x)).isNone) :=
    paramNames_filter (fun x => (ex.find? (fun q => q.name == x)).isNone) np
  have hA : (paramNames (ex.filter (fun q => np.any (fun p => p.name == q.name)))).Perm
      ((paramNames np).filter
        (fun x => !(ex.find? (fun q => q.name == x)).isNone)) := by
    apply perm_of_nodup_mem_iff hL1nodup (hnp.filter _)
    intro x
    rw [hL1names]
    rw [List.mem_filter, List.mem_filter]
    constructor
    · rintro ⟨hxe, hany⟩
      obtain ⟨q, hq, hqx⟩ := List.any_eq_true.mp hany
      have hqx' : q.name = x := by simpa using hqx
      refine ⟨hqx' ▸ List.mem_map_of_mem _ hq, ?_⟩
      have hsome : (ex.find? (fun q => q.name == x)).isSome :=
        (findName_isSome_iff ex x).mpr hxe
      cases hfind : ex.find? (fun q => q.name == x) with
      | none => rw [hfind] at hsome; simp at hsome
      | some v => simp
    · rintro ⟨hxnp, hnn⟩
      have hsome : (ex.find? (fun q => q.name == x)).isSome := by
        cases hfind : ex.find? (fun q => q.name == x) with
        | none => rw [hfind] at hnn; simp at hnn
        | some v => rfl
      refine ⟨(findName_isSome_iff ex x).mp hsome, ?_⟩
      obtain ⟨q, hq, hqx⟩ := List.mem_map.mp hxnp
      exact List.any_eq_true.mpr ⟨q, hq, by simp [hqx]⟩
  have hsplit := List.filter_append_perm
    (fun x => !(ex.find? (fun q => q.name == x)).isNone) (paramNames np)
  have hnotnot : (paramNames np).filter
      (fun x => !!(ex.find? (fun q => q.name == x)).isNone) =
      (paramNames np).filter
        (fun x => (ex.find? (fun q => q.name == x)).isNone) := by
    apply List.filter_congr
    intro x _
    simp
  refine key.trans ?_
  rw [hB]
  refine ((hA.append_right _).trans ?_)
  rw [hnotnot] at hsplit
  exact hsplit

/-- C8: reconciliation is idempotent — reconciling the result of a
reconciliation against the same schema is a no-op.  The name lists of a
parameter map and of a parsed schema have no duplicates (names are unique
within a source), which is the hypothesis used. -/
theorem claim_C8_reconcile_idempotent (ex np : List ProjectParameter)
    (hex : (paramNames ex).Nodup) (hnp : (paramNames np).Nodup) :
    reconcileParameters (reconcileParameters ex np) np =
      reconcileParameters ex np := by
  by_cases hch : parametersChanged ex np = true
  · have hr : reconcileParameters ex np = np.foldl (reconcileStep ex)
        (ex.filter (fun q => np.any (fun p => p.name == q.name))) := by
      unfold reconcileParameters
      rw [hch]
      rfl
    have hsorted : sortedNames (reconcileParameters ex np) = sortedNames np := by
      rw [hr]
      exact sortedNames_eq_of_perm (reconcile_names_perm ex np hex hnp)
    have hch2 : parametersChanged (reconcileParameters ex np) np = false := by
      unfold parametersChanged
      rw [hsorted]
      simp
    exact reconcile_of_not_changed _ _ hch2
  · have hfalse : parametersChanged ex np = false :=
      Bool.eq_false_iff.mpr hch
    rw [reconcile_of_not_changed ex np hfalse]
    exact reconcile_of_not_changed ex np hfalse


/-- Witness for C8 at a concrete map and schema whose name sets differ
(the reconciliation actually runs). -/
theorem claim_C8_reconcile_idempotent_witness :
    reconcileParameters (reconcileParameters exC2
        [{ name := "size", type := .boolean, value := .bool false, min := none
           max := none, step := none, options := none, description := none },
         { name := "count", type := .number, value := .num (.num 1), min := none
           max := none, step := none, options := none, description := none }])
        [{ name := "size", type := .boolean, value := .bool false, min := none
           max := none, step := none, options := none, description := none },
         { name := "count", type := .number, value := .num (.num 1), min := none
           max := none, step := none, options := none, description := none }] =
      reconcileParameters exC2
        [{ name := "size", type := .boolean, value := .bool false, min := none
           max := none, step := none, options := none, description := none },
         { name := "count", type := .number, value := .num (.num 1), min := none
           max := none, step := none, options := none, description := none }] :=
  claim_C8_reconcile_idempotent exC2 _ (by decide) (by decide)

end GenArt
